import Mathlib

/-!
Verification of the insurance-project-rag document pipeline.

Text is modelled as List Char (one entry per Unicode code point, matching
Python string indexing).  Pure helpers mirror the Python string operations
used by the source: splitting on newline, joining, stripping whitespace.
-/

/-- Newline character used by the pipeline. -/
def nlc : Char := '\n'

/-- Whitespace test modelling Python str.strip's character class
(space, tab, newline, carriage return, vertical tab, form feed). -/
def isSpaceC (c : Char) : Bool :=
  c = ' ' || c = '\t' || c = '\n' || c = '\r' || c = '\x0b' || c = '\x0c'

/-- Python str.strip: drop whitespace from both ends. -/
def pyStrip (l : List Char) : List Char :=
  ((l.dropWhile isSpaceC).reverse.dropWhile isSpaceC).reverse

/-- Python str.split on a single newline character. -/
def splitNL : List Char → List (List Char)
  | [] => [[]]
  | c :: r =>
    if c = nlc then [] :: splitNL r
    else
      match splitNL r with
      | h :: t => (c :: h) :: t
      | [] => [[c]]

/-- Python newline join over a list of lines. -/
def joinNL (ls : List (List Char)) : List Char :=
  match ls with
  | [] => []
  | [l] => l
  | l :: rest => l ++ nlc :: joinNL rest

/-- Python startswith for character lists. -/
def leadsWith : List Char → List Char → Bool
  | [], _ => true
  | _ :: _, [] => false
  | p :: ps, c :: cs => p = c && leadsWith ps cs

/-- Python substring containment test for character lists. -/
def containsSub (s : List Char) : List Char → Bool
  | [] => leadsWith s []
  | c :: cs => leadsWith s (c :: cs) || containsSub s cs

/-!
Character-run deduplication, embedding PDFParser._deduplicate_text.

The source applies two regex substitutions in sequence:
first every run of two or more identical Hebrew-block characters is
collapsed to a single character, then every run of four or more identical
non-Hebrew characters is collapsed to a single character.  A regex
substitution with a backreference rewrites each maximal run, so each pass
is modelled as a rewrite of the run-length encoding of the text.
-/

/-- Membership in the Hebrew Unicode block, the character class of the
source regex (U+0590 to U+05FF). -/
def isHeb (c : Char) : Bool := 0x590 ≤ c.toNat && c.toNat ≤ 0x5FF

/-- Run-length encoding of a character list. -/
def rle : List Char → List (Char × Nat)
  | [] => []
  | c :: cs =>
    match rle cs with
    | (d, n) :: t => if c = d then (c, n + 1) :: t else (c, 1) :: (d, n) :: t
    | [] => [(c, 1)]

/-- Decode one run back to its characters. -/
def runDecode (r : Char × Nat) : List Char := List.replicate r.2 r.1

/-- Rewrite one run: runs of characters satisfying p with length at least
thr collapse to a single character (the regex substitution on one maximal
match). -/
def runExpand (p : Char → Bool) (thr : Nat) (r : Char × Nat) : List Char :=
  if p r.1 && thr ≤ r.2 then [r.1] else List.replicate r.2 r.1

/-- Length adjustment performed by runExpand, kept as a run. -/
def runAdjust (p : Char → Bool) (thr : Nat) (r : Char × Nat) : Char × Nat :=
  if p r.1 && thr ≤ r.2 then (r.1, 1) else r

/-- One regex pass: rewrite every maximal run. -/
def collapseRuns (p : Char → Bool) (thr : Nat) (s : List Char) : List Char :=
  ((rle s).map (runExpand p thr)).flatten

/-- Embedding of PDFParser._deduplicate_text: the Hebrew 2+ pass followed
by the non-Hebrew 4+ pass (with the empty-string guard of the source). -/
def deduplicate_text (s : List Char) : List Char :=
  if s = [] then s
  else collapseRuns (fun c => !isHeb c) 4 (collapseRuns isHeb 2 s)

/-- Specification of the deduplication pass, following the spec text: in a
single traversal of the maximal runs, a run of 2+ identical Hebrew-block
characters becomes one character, a run of 4+ identical characters outside
that block becomes one character, and every other run is kept verbatim. -/
def dedupRunsSpec (s : List Char) : List Char :=
  ((rle s).map (fun r =>
    if isHeb r.1 && 2 ≤ r.2 then [r.1]
    else if !isHeb r.1 && 4 ≤ r.2 then [r.1]
    else List.replicate r.2 r.1)).flatten

/-!
Glyph-level page extraction, embedding PDFParser._extract_text_from_chars
(the no-exclusion path).  Glyph coordinates are modelled as integers, a
faithful restriction of the float coordinates used by the source; Python
round uses banker's rounding (round half to even), modelled exactly on
half-integers by pyHalfRound.
-/

/-- Python round(x / 2) for an integer x: banker's rounding, so a
half-integer value rounds to the nearest even integer. -/
def pyHalfRound (x : Int) : Int :=
  if x % 2 = 0 then x / 2
  else
    let q := (x - 1) / 2
    if q % 2 = 0 then q else q + 1

/-- Quantised coordinate round(x / POSITION_TOLERANCE) * POSITION_TOLERANCE
with POSITION_TOLERANCE = 2, as in the source. -/
def quantPos (x : Int) : Int := 2 * pyHalfRound x

/-- One character object of pdfplumber: literal text plus x0/top anchor. -/
structure Glyph where
  text : List Char
  x0 : Int
  top : Int
deriving DecidableEq

/-- Dedup key of the source: quantised x0, quantised top, literal text. -/
def posKey (g : Glyph) : Int × Int × List Char :=
  (quantPos g.x0, quantPos g.top, g.text)

/-- First-seen deduplication with an explicit seen set, the loop shape used
both for glyph dedup and for the retrieval merge. -/
def dedupAux (key : α → β) [DecidableEq β] : List β → List α → List α
  | _, [] => []
  | seen, x :: xs =>
    if key x ∈ seen then dedupAux key seen xs
    else x :: dedupAux key (key x :: seen) xs

/-- Keep the first occurrence of every key, preserving order. -/
def dedupByKey (key : α → β) [DecidableEq β] (l : List α) : List α :=
  dedupAux key [] l

/-- Stable ascending insertion by an integer key: an element is placed
before the first later element whose key is not smaller, which matches the
stability of Python sorted. -/
def insAsc (key : α → Int) (x : α) : List α → List α
  | [] => [x]
  | y :: ys => if key y < key x then y :: insAsc key x ys else x :: y :: ys

/-- Stable ascending sort by an integer key (Python sorted with a key). -/
def sortAscBy (key : α → Int) : List α → List α
  | [] => []
  | x :: xs => insAsc key x (sortAscBy key xs)

/-- Line grouping: a glyph joins the current line when its top is within
LINE_TOLERANCE = 5 of the line's anchor (first) glyph. -/
def groupAux (anchorTop : Int) (cur : List Glyph) : List Glyph → List (List Glyph)
  | [] => [cur]
  | g :: gs =>
    if (g.top - anchorTop).natAbs ≤ 5 then groupAux anchorTop (cur ++ [g]) gs
    else cur :: groupAux g.top [g] gs

/-- Group a top-sorted glyph list into lines. -/
def groupLines : List Glyph → List (List Glyph)
  | [] => []
  | g :: gs => groupAux g.top [g] gs

/-- Assemble one line: sort by x0, concatenate glyph texts, then apply the
text-level deduplication pass. -/
def lineText (line : List Glyph) : List Char :=
  deduplicate_text (((sortAscBy (fun g => g.x0) line).map Glyph.text).flatten)

/-- Embedding of PDFParser._extract_text_from_chars without excluded
boxes: positional dedup, top sort, line grouping, per-line assembly,
newline join. -/
def extract_text_from_chars (chars : List Glyph) : List Char :=
  if chars = [] then []
  else
    let ded := dedupByKey posKey chars
    if ded = [] then []
    else joinNL ((groupLines (sortAscBy (fun g => g.top) ded)).map lineText)

/-!
Hybrid retrieval, embedding VectorDB.search.

The dense vector store, the BM25 lexical index and the cross-encoder
reranker are external collaborators; their responses enter the model as
parameters (the candidate lists returned for the query, and the reranker
outcome).  The merge, dedup, rerank and truncation logic is the code under
verification.
-/

/-- One stored chunk as seen by retrieval: page_content plus an opaque
metadata tag (so two distinct documents may carry equal text). -/
structure RDoc where
  text : List Char
  tag : Nat
deriving DecidableEq

/-- Outcome of the reranking stage: either a scoring function obtained
from the cross-encoder, or a failure (import, load or predict raised). -/
inductive RerankOutcome where
  | ok (score : List Char → List Char → Int)
  | fail

/-- Stable descending insertion by an integer key (Python list.sort with
reverse=True is stable, keeping original order on ties). -/
def insDesc (key : α → Int) (x : α) : List α → List α
  | [] => [x]
  | y :: ys => if key x < key y then y :: insDesc key x ys else x :: y :: ys

/-- Stable descending sort by an integer key. -/
def sortDescBy (key : α → Int) : List α → List α
  | [] => []
  | x :: xs => insDesc key x (sortDescBy key xs)

/-- Embedding of VectorDB.search given the collaborator responses:
vres are the vector-store candidates, bres the BM25 candidates for the
query.  Candidates are merged vector-first and deduplicated by exact
page_content equality; with reranking enabled and a non-empty candidate
list, scores order the candidates descending (stably) and the top k are
returned; if the reranker fails, or reranking is disabled, the first k
merged candidates are returned. -/
def searchVD (vres bres : List RDoc) (query : List Char) (k : Nat)
    (useRerank : Bool) (ro : RerankOutcome) : List RDoc :=
  let candidates := dedupByKey RDoc.text (vres ++ bres)
  if useRerank && !candidates.isEmpty then
    match ro with
    | RerankOutcome.ok score =>
        (sortDescBy (fun d => score query d.text) candidates).take k
    | RerankOutcome.fail => candidates.take k
  else candidates.take k

/-!
Table chunking, embedding DocumentProcessor._chunk_table together with
the markdown table construction of PDFParser._table_to_markdown.  Token
counting and token truncation belong to the external E5 tokenizer
(transformers), so chunk_table is parametrised by a count and a trunc
function; concrete instances (character count, prefix truncation) stand
in for the external tokenizer in evaluated examples.
-/

/-- Join a list of pieces with a separator (Python sep.join). -/
def joinWith (sep : List Char) : List (List Char) → List Char
  | [] => []
  | [x] => x
  | x :: rest => x ++ sep ++ joinWith sep rest

/-- Embedding of PDFParser._clean_cell for string cells: strip, replace
newline by space, delete carriage returns, run the duplication heuristic,
escape the column delimiter. -/
def clean_cell (cell : Option (List Char)) : List Char :=
  match cell with
  | none => []
  | some s =>
    let t1 := pyStrip s
    let t2 := t1.map (fun c => if c = nlc then ' ' else c)
    let t3 := t2.filter (fun c => c ≠ '\r')
    let t4 := deduplicate_text t3
    (t4.map (fun c => if c = '|' then ['\\', '|'] else [c])).flatten

/-- Markdown row: a delimiter-framed join of the cells. -/
def mdRow (cells : List (List Char)) : List Char :=
  ('|' :: ' ' :: joinWith [' ', '|', ' '] cells) ++ [' ', '|']

/-- Embedding of PDFParser._table_to_markdown: header row, separator row
of dashes, data rows padded (or truncated) to the header width. -/
def table_to_markdown (table : List (List (Option (List Char)))) : List Char :=
  match (table.filter (fun row => row ≠ [])).map (fun row => row.map clean_cell) with
  | [] => []
  | headerRow :: dataRows =>
    let colCount := headerRow.length
    if colCount = 0 then []
    else
      let padRow := fun (row : List (List Char)) =>
        (row ++ List.replicate (colCount - row.length) []).take colCount
      let sepRow := mdRow (List.replicate colCount ['-', '-', '-'])
      joinNL (mdRow headerRow :: sepRow :: dataRows.map (fun r => mdRow (padRow r)))

/-- Row-accumulation loop of DocumentProcessor._chunk_table: close the
current chunk when the next row would exceed the budget and the chunk is
non-empty, else append the row; each chunk is the header followed by its
rows. -/
def tableLoop (count : List Char → Nat) (maxTokens : Nat) (header : List Char)
    (headerTokens : Nat) :
    List (List Char) → List (List Char) → Nat → List (List Char)
  | [], currentRows, _ =>
      if currentRows = [] then [] else [header ++ nlc :: joinNL currentRows]
  | row :: rest, currentRows, currentTokens =>
      let rowTokens := count row
      if maxTokens < currentTokens + rowTokens ∧ currentRows ≠ [] then
        (header ++ nlc :: joinNL currentRows) ::
          tableLoop count maxTokens header headerTokens rest [row]
            (headerTokens + rowTokens)
      else
        tableLoop count maxTokens header headerTokens rest
          (currentRows ++ [row]) (currentTokens + rowTokens)

/-- Embedding of DocumentProcessor._chunk_table, parametrised by the
external tokenizer's count and truncate operations. -/
def chunk_table (count : List Char → Nat) (trunc : List Char → Nat → List Char)
    (table : List Char) (maxTokens : Nat) : List (List Char) :=
  let lines := splitNL table
  if lines.length < 2 then [table]
  else
    let header := joinNL (lines.take 2)
    let headerTokens := count header
    let dataRows := lines.drop 2
    if dataRows = [] then [table]
    else if count table ≤ maxTokens then [table]
    else if maxTokens ≤ headerTokens then [trunc table maxTokens]
    else
      let chunks := tableLoop count maxTokens header headerTokens dataRows [] headerTokens
      if chunks = [] then [table] else chunks

/-!
Markdown table extraction from assembled text, embedding
DocumentProcessor._extract_tables.  The loop walks the newline-split
lines; a table starts at a line whose stripped form starts with the
delimiter and whose next line's stripped form matches the separator
pattern; all following lines whose stripped form starts with the
delimiter are consumed.  The recursion is written with fuel equal to the
number of lines, which every branch strictly decreases by at least the
number of lines it consumes.
-/

/-- Test of the source: line.strip().startswith the delimiter. -/
def pipeStart (l : List Char) : Bool := leadsWith ['|'] (pyStrip l)

/-- Character class of the separator regex: whitespace, dash, colon. -/
def sepClass (c : Char) : Bool := isSpaceC c || c = '-' || c = ':'

/-- Match test of the separator regex on a stripped line: a delimiter,
then a non-empty greedy run of class characters, then a delimiter.  The
delimiter is not in the class, so the greedy match never backtracks. -/
def isSepLine (s : List Char) : Bool :=
  match s with
  | '|' :: rest =>
    let run := rest.takeWhile sepClass
    !run.isEmpty &&
      (match rest.drop run.length with
       | '|' :: _ => true
       | _ => false)
  | _ => false

/-- Does the next line's stripped form match the separator pattern (and
exist at all)? -/
def sepNext (rest : List (List Char)) : Bool :=
  match rest with
  | nxt :: _ => isSepLine (pyStrip nxt)
  | [] => false

/-- Placeholder text substituted for table number n. -/
def tablePlaceholder (n : Nat) : List Char :=
  ("__TABLE_").data ++ Nat.toDigits 10 n ++ ("__").data

/-- Loop of _extract_tables over the remaining lines, carrying the
character position in the original text and the next table index. -/
def extractAux : Nat → List (List Char) → Nat → Nat →
    List (List Char) × List (List Char) × List Nat
  | 0, lines, _, _ => (lines, [], [])
  | fuel + 1, lines, pos, tidx =>
    match lines with
    | [] => ([], [], [])
    | l :: rest =>
      if pipeStart l && sepNext rest then
        let tbl := l :: rest.takeWhile pipeStart
        let consumed := (tbl.map (fun x => x.length + 1)).sum
        let remaining := rest.drop (rest.takeWhile pipeStart).length
        let res := extractAux fuel remaining (pos + consumed) (tidx + 1)
        (tablePlaceholder tidx :: res.1, joinNL tbl :: res.2.1, pos :: res.2.2)
      else
        let res := extractAux fuel rest (pos + l.length + 1) tidx
        (l :: res.1, res.2.1, res.2.2)

/-- Embedding of DocumentProcessor._extract_tables. -/
def extract_tables (text : List Char) :
    List Char × List (List Char) × List Nat :=
  let lines := splitNL text
  let res := extractAux lines.length lines 0 0
  (joinNL res.1, res.2.1, res.2.2)

/-!
Page assembly, embedding the concatenation loop of
DocumentProcessor.process_file: each page contributes its content plus a
two-character separator, the recorded range of a page is
[position, position + len(content)) while the running position advances
by len(content) + 2, and the final text is stripped.
-/

/-- One parsed page: page number from the parser metadata plus content. -/
structure PageRec where
  page : Nat
  content : List Char
deriving DecidableEq

/-- One recorded page range over the assembled text. -/
structure PageRange where
  page : Nat
  start : Nat
  stop : Nat
deriving DecidableEq

/-- Range construction of process_file from a running position. -/
def buildRanges : List PageRec → Nat → List PageRange
  | [], _ => []
  | p :: ps, pos =>
    ⟨p.page, pos, pos + p.content.length⟩ ::
      buildRanges ps (pos + p.content.length + 2)

/-- Concatenation of page contents with the two-newline separator, before
the final strip. -/
def assembledRaw (ps : List PageRec) : List Char :=
  (ps.map (fun p => p.content ++ [nlc, nlc])).flatten

/-- The assembled full text of process_file (stripped). -/
def assembleText (ps : List PageRec) : List Char := pyStrip (assembledRaw ps)

/-- Total assembled length before stripping. -/
def totalLen (ps : List PageRec) : Nat :=
  (ps.map (fun p => p.content.length + 2)).sum

/-!
Token-aware recursive splitting.  The separator cascade configuration
(create_text_splitter) is repository code, but the splitting algorithm
itself lives in the external langchain RecursiveCharacterTextSplitter,
which is not part of this repository; the splitter below is therefore
modelled from the spec (prioritised separator cascade, recursion only
into oversized pieces, greedy joining of undersized pieces up to the
budget, overlap-limited carry-over), parametrised by the external
tokenizer's count function.
-/

/-- Modelled from the spec: split on one separator, keeping the separator
attached to the end of the piece it terminates.  Fuel starts at the text
length; every step consumes at least one character. -/
def splitKeepF (s : List Char) : Nat → List Char → List Char → List (List Char)
  | 0, acc, _ => [acc.reverse]
  | _ + 1, acc, [] => [acc.reverse]
  | fuel + 1, acc, c :: rest =>
    if leadsWith s (c :: rest) then
      (acc.reverse ++ s) :: splitKeepF s fuel [] (rest.drop (s.length - 1))
    else splitKeepF s fuel (c :: acc) rest

/-- Modelled from the spec: split a text on a non-empty separator. -/
def splitKeep (s : List Char) (t : List Char) : List (List Char) :=
  splitKeepF s t.length [] t

/-- Modelled from the spec: when a chunk is closed, keep at most
overlap_tokens of trailing pieces for the next chunk's head, dropping
from the front while the carried content exceeds the overlap or would
not fit the budget together with the next piece. -/
def shrink (count : List Char → Nat) (budget overlap : Nat) (next : List Char) :
    List (List Char) → List (List Char)
  | [] => []
  | b :: bs =>
    if overlap < count ((b :: bs).flatten)
        ∨ budget < count (((b :: bs) ++ [next]).flatten)
    then shrink count budget overlap next bs
    else b :: bs

/-- Modelled from the spec: join adjacent undersized pieces to approach
but not exceed the budget; when the next piece does not fit, close the
chunk and seed the next buffer with the overlap carry plus the piece. -/
def mergeAux (count : List Char → Nat) (budget overlap : Nat) :
    List (List Char) → List (List Char) → List (List Char)
  | buf, [] => if buf.isEmpty then [] else [buf.flatten]
  | buf, p :: ps =>
    if buf.isEmpty then mergeAux count budget overlap [p] ps
    else if count ((buf ++ [p]).flatten) ≤ budget then
      mergeAux count budget overlap (buf ++ [p]) ps
    else buf.flatten :: mergeAux count budget overlap
      (shrink count budget overlap p buf ++ [p]) ps

/-- Modelled from the spec: walk the pieces of one separator level,
buffering undersized pieces for merging and recursing (via f) only into
pieces that exceed the budget. -/
def gatherPieces (count : List Char → Nat) (budget overlap : Nat)
    (f : List Char → List (List Char)) :
    List (List Char) → List (List Char) → List (List Char)
  | buf, [] => mergeAux count budget overlap [] buf
  | buf, p :: ps =>
    if count p ≤ budget then gatherPieces count budget overlap f (buf ++ [p]) ps
    else mergeAux count budget overlap [] buf ++ f p
      ++ gatherPieces count budget overlap f [] ps

/-- Modelled from the spec: the prioritised separator cascade — use the
first separator that is empty or occurs in the text, split on it (the
empty separator splits into single characters), process the pieces, and
otherwise fall through to the remaining separators.  Fuel equals the
number of separators. -/
def splitCascade (count : List Char → Nat) (budget overlap : Nat) :
    Nat → List (List Char) → List Char → List (List Char)
  | 0, _, text => [text]
  | _ + 1, [], text => [text]
  | fuel + 1, s :: rest, text =>
    if s.isEmpty || containsSub s text then
      gatherPieces count budget overlap
        (fun piece => splitCascade count budget overlap fuel rest piece) []
        (if s.isEmpty then text.map (fun c => [c]) else splitKeep s text)
    else splitCascade count budget overlap fuel rest text

/-- Separator cascade of create_text_splitter: paragraph break, line
break, sentence end, colon, space, empty fallback. -/
def hebrewSeparators : List (List Char) :=
  [[nlc, nlc], [nlc], ['.'], [':'], [' '], []]

/-- Modelled from the spec: the token-aware splitter configured by
create_text_splitter, measuring length with the embedding tokenizer's
count function (passed as a parameter since the tokenizer is external). -/
def splitTextSpec (count : List Char → Nat) (budget overlap : Nat)
    (text : List Char) : List (List Char) :=
  splitCascade count budget overlap hebrewSeparators.length hebrewSeparators text

theorem splitNL_ne_nil (l : List Char) : splitNL l ≠ [] := by
  induction l with
  | nil => simp [splitNL]
  | cons c r ih =>
    simp only [splitNL]
    split
    · simp
    · cases h : splitNL r with
      | nil => exact absurd h ih
      | cons a t => simp

theorem joinNL_splitNL (l : List Char) : joinNL (splitNL l) = l := by
  induction l with
  | nil => simp [splitNL, joinNL]
  | cons c r ih =>
    simp only [splitNL]
    split
    · rename_i hc
      cases h : splitNL r with
      | nil => exact absurd h (splitNL_ne_nil r)
      | cons a t =>
        rw [h] at ih
        subst hc
        simp [joinNL]
        cases t with
        | nil => simpa [joinNL] using ih
        | cons b t' => simpa [joinNL] using ih
    · cases h : splitNL r with
      | nil => exact absurd h (splitNL_ne_nil r)
      | cons a t =>
        rw [h] at ih
        cases t with
        | nil => simpa [joinNL] using ih
        | cons b t' => simpa [joinNL] using ih

theorem rle_head (l : List Char) : (rle l).head?.map Prod.fst = l.head? := by
  induction l with
  | nil => simp [rle]
  | cons c cs ih =>
    simp only [rle]
    cases h : rle cs with
    | nil => simp
    | cons r t =>
      obtain ⟨d, n⟩ := r
      by_cases hc : c = d <;> simp [hc]

theorem rle_pos (l : List Char) : ∀ r ∈ rle l, 1 ≤ r.2 := by
  induction l with
  | nil => simp [rle]
  | cons c cs ih =>
    intro r hr
    simp only [rle] at hr
    rcases h : rle cs with _ | ⟨⟨d, n⟩, t⟩
    · rw [h] at hr
      simp at hr
      simp [hr]
    · rw [h] at hr
      rw [h] at ih
      by_cases hc : c = d
      · simp [hc] at hr
        rcases hr with hr | hr
        · simp [hr]
        · exact ih r (by simp [hr])
      · simp [hc] at hr
        rcases hr with hr | hr | hr
        · simp [hr]
        · exact ih r (by simp [hr])
        · exact ih r (by simp [hr])

theorem rle_chain (l : List Char) :
    List.Chain' (fun a b : Char × Nat => a.1 ≠ b.1) (rle l) := by
  induction l with
  | nil => simp [rle]
  | cons c cs ih =>
    simp only [rle]
    cases h : rle cs with
    | nil => simp
    | cons r t =>
      obtain ⟨d, n⟩ := r
      rw [h] at ih
      by_cases hc : c = d
      · simp only [hc, if_pos rfl]
        exact List.Chain'.cons' (List.Chain'.tail ih) (by
          intro x hx
          have := List.chain'_cons'.mp ih
          exact this.1 x hx)
      · simp only [if_neg hc]
        exact List.Chain'.cons' ih (by
          intro x hx
          simp at hx
          subst hx
          simpa using hc)

theorem rle_decode (l : List Char) : ((rle l).map runDecode).flatten = l := by
  induction l with
  | nil => simp [rle]
  | cons c cs ih =>
    simp only [rle]
    cases h : rle cs with
    | nil =>
      rw [h] at ih
      simp at ih
      simp [runDecode, ih]
    | cons r t =>
      obtain ⟨d, n⟩ := r
      rw [h] at ih
      by_cases hc : c = d
      · subst hc
        simp only [if_pos rfl]
        simp only [List.map_cons, List.flatten_cons] at ih ⊢
        simp [runDecode, List.replicate_succ] at ih ⊢
        exact ih
      · simp only [if_neg hc]
        simp only [List.map_cons, List.flatten_cons] at ih ⊢
        simp [runDecode, List.replicate_succ]
        exact ih

theorem rle_replicate_append (n : Nat) (c : Char) (l : List Char)
    (hl : l.head? ≠ some c) :
    rle (List.replicate (n + 1) c ++ l) = (c, n + 1) :: rle l := by
  induction n with
  | zero =>
    show (match rle l with
      | (d, k) :: t => if c = d then (c, k + 1) :: t else (c, 1) :: (d, k) :: t
      | [] => [(c, 1)]) = (c, 1) :: rle l
    cases h : rle l with
    | nil => simp
    | cons r t =>
      obtain ⟨d, m⟩ := r
      have hd : (rle l).head?.map Prod.fst = l.head? := rle_head l
      rw [h] at hd
      simp at hd
      have : c ≠ d := by
        intro hcd
        subst hcd
        exact hl hd.symm
      simp [this]
  | succ n ih =>
    have hstep : List.replicate (n + 1 + 1) c ++ l = c :: (List.replicate (n + 1) c ++ l) := by
      simp [List.replicate_succ]
    rw [hstep]
    show (match rle (List.replicate (n + 1) c ++ l) with
      | (d, k) :: t => if c = d then (c, k + 1) :: t else (c, 1) :: (d, k) :: t
      | [] => [(c, 1)]) = (c, n + 1 + 1) :: rle l
    rw [ih]
    simp

theorem rle_encode (runs : List (Char × Nat))
    (h1 : ∀ r ∈ runs, 1 ≤ r.2)
    (h2 : List.Chain' (fun a b : Char × Nat => a.1 ≠ b.1) runs) :
    rle ((runs.map runDecode).flatten) = runs := by
  induction runs with
  | nil => simp [rle]
  | cons r rest ih =>
    obtain ⟨c, n⟩ := r
    have hn : 1 ≤ n := h1 ⟨c, n⟩ (by simp)
    obtain ⟨m, rfl⟩ : ∃ m, n = m + 1 := ⟨n - 1, by omega⟩
    have hhead : ((rest.map runDecode).flatten).head? ≠ some c := by
      cases rest with
      | nil => simp
      | cons r2 t =>
        obtain ⟨c2, n2⟩ := r2
        have hn2 : 1 ≤ n2 := h1 ⟨c2, n2⟩ (by simp)
        obtain ⟨m2, rfl⟩ : ∃ m2, n2 = m2 + 1 := ⟨n2 - 1, by omega⟩
        have hne : c ≠ c2 := by
          have := List.chain'_cons.mp h2
          exact this.1
        simp [runDecode, List.replicate_succ]
        exact fun h => hne h.symm
    simp only [List.map_cons, List.flatten_cons]
    have hdec : runDecode (c, m + 1) = List.replicate (m + 1) c := rfl
    rw [hdec, rle_replicate_append m c _ hhead]
    rw [ih (fun r hr => h1 r (by simp [hr])) (List.Chain'.tail h2)]

theorem runExpand_eq_decode_adjust (p : Char → Bool) (thr : Nat) (r : Char × Nat) :
    runExpand p thr r = runDecode (runAdjust p thr r) := by
  obtain ⟨c, n⟩ := r
  simp only [runExpand, runAdjust, runDecode]
  split <;> simp

theorem rle_collapse (p : Char → Bool) (thr : Nat) (s : List Char) :
    rle (collapseRuns p thr s) = (rle s).map (runAdjust p thr) := by
  have h1 : ∀ r ∈ (rle s).map (runAdjust p thr), 1 ≤ r.2 := by
    intro r hr
    simp only [List.mem_map] at hr
    obtain ⟨r0, hr0, rfl⟩ := hr
    have := rle_pos s r0 hr0
    simp only [runAdjust]
    split <;> simp_all
  have h2 : List.Chain' (fun a b : Char × Nat => a.1 ≠ b.1)
      ((rle s).map (runAdjust p thr)) := by
    rw [List.chain'_map]
    have hfst : ∀ r, (runAdjust p thr r).1 = r.1 := by
      intro r
      simp only [runAdjust]
      split <;> simp
    have := rle_chain s
    apply List.Chain'.imp _ this
    intro a b hab
    rw [hfst, hfst]
    exact hab
  have : collapseRuns p thr s = (((rle s).map (runAdjust p thr)).map runDecode).flatten := by
    simp only [collapseRuns, List.map_map]
    congr 1
    apply List.map_congr_left
    intro r _
    exact runExpand_eq_decode_adjust p thr r
  rw [this]
  exact rle_encode _ h1 h2

theorem runExpand_compose (r : Char × Nat) :
    runExpand (fun c => !isHeb c) 4 (runAdjust isHeb 2 r) =
      (if isHeb r.1 && 2 ≤ r.2 then [r.1]
       else if !isHeb r.1 && 4 ≤ r.2 then [r.1]
       else List.replicate r.2 r.1) := by
  obtain ⟨c, n⟩ := r
  by_cases hh : isHeb c
  · by_cases h2 : 2 ≤ n
    · simp [runAdjust, runExpand, hh, h2]
    · simp [runAdjust, runExpand, hh, h2]
  · by_cases h4 : 4 ≤ n
    · simp [runAdjust, runExpand, hh, h4]
    · simp [runAdjust, runExpand, hh, h4]

/-- C8: deduplicate_text rewrites the maximal runs of its input exactly as
the spec describes: every run of 2+ identical Hebrew-block characters
collapses to one character, every run of 4+ identical characters outside
that block collapses to one character, and every shorter run (in
particular any repetition of a digit of length at most 3) is preserved
verbatim; consequently the string 2,000,000 is returned unchanged. -/
theorem c8_text_dedup_thresholds :
    (∀ s : List Char, deduplicate_text s = dedupRunsSpec s)
    ∧ deduplicate_text ("2,000,000".data) = "2,000,000".data := by
  constructor
  · intro s
    by_cases hs : s = []
    · subst hs
      simp [deduplicate_text, dedupRunsSpec, rle]
    · simp only [deduplicate_text, if_neg hs]
      calc collapseRuns (fun c => !isHeb c) 4 (collapseRuns isHeb 2 s)
          = ((rle (collapseRuns isHeb 2 s)).map
              (runExpand (fun c => !isHeb c) 4)).flatten := rfl
        _ = (((rle s).map (runAdjust isHeb 2)).map
              (runExpand (fun c => !isHeb c) 4)).flatten := by
            rw [rle_collapse isHeb 2 s]
        _ = dedupRunsSpec s := by
            simp only [List.map_map, dedupRunsSpec]
            congr 1
            apply List.map_congr_left
            intro r _
            exact runExpand_compose r
  · decide

theorem dedupAux_sublist (key : α → β) [DecidableEq β] (seen : List β) (l : List α) :
    List.Sublist (dedupAux key seen l) l := by
  induction l generalizing seen with
  | nil => simp [dedupAux]
  | cons x xs ih =>
    simp only [dedupAux]
    split
    · exact (ih seen).cons x
    · exact (ih (key x :: seen)).cons₂ x

theorem dedupAux_not_seen (key : α → β) [DecidableEq β] (seen : List β) (l : List α) :
    ∀ x ∈ dedupAux key seen l, key x ∉ seen := by
  induction l generalizing seen with
  | nil => simp [dedupAux]
  | cons y ys ih =>
    intro x hx
    simp only [dedupAux] at hx
    split at hx
    · exact ih seen x hx
    · rcases List.mem_cons.mp hx with h | h
      · subst h
        assumption
      · have := ih (key y :: seen) x h
        intro hc
        exact this (List.mem_cons_of_mem _ hc)

theorem dedupAux_pairwise (key : α → β) [DecidableEq β] (seen : List β) (l : List α) :
    List.Pairwise (fun a b => key a ≠ key b) (dedupAux key seen l) := by
  induction l generalizing seen with
  | nil => simp [dedupAux]
  | cons x xs ih =>
    simp only [dedupAux]
    split
    · exact ih seen
    · refine List.Pairwise.cons ?_ (ih (key x :: seen))
      intro y hy
      have := dedupAux_not_seen key (key x :: seen) xs y hy
      intro hc
      exact this (by simp [hc])

theorem dedupAux_covers (key : α → β) [DecidableEq β] (seen : List β) (l : List α) :
    ∀ x ∈ l, key x ∈ seen ∨ ∃ y ∈ dedupAux key seen l, key y = key x := by
  induction l generalizing seen with
  | nil => simp
  | cons z zs ih =>
    intro x hx
    rcases List.mem_cons.mp hx with h | h
    · subst h
      simp only [dedupAux]
      by_cases hz : key x ∈ seen
      · exact Or.inl hz
      · right
        exact ⟨x, by simp [hz], rfl⟩
    · simp only [dedupAux]
      by_cases hz : key z ∈ seen
      · simp only [if_pos hz]
        exact ih seen x h
      · simp only [if_neg hz]
        rcases ih (key z :: seen) x h with hmem | ⟨y, hy, hk⟩
        · rcases List.mem_cons.mp hmem with hh | hh
          · right
            exact ⟨z, by simp, hh.symm⟩
          · exact Or.inl hh
        · right
          exact ⟨y, List.mem_cons_of_mem _ hy, hk⟩

theorem dedupAux_first_of_append (key : α → β) [DecidableEq β]
    (seen : List β) (v b : List α) :
    ∀ y ∈ dedupAux key seen (v ++ b), key y ∈ v.map key → y ∈ v := by
  induction v generalizing seen with
  | nil => simp
  | cons a v' ih =>
    intro y hy hk
    simp only [List.cons_append, dedupAux] at hy
    split at hy
    · rename_i hmem
      have hns := dedupAux_not_seen key seen (v' ++ b) y hy
      rw [List.map_cons] at hk
      rcases List.mem_cons.mp hk with h | h
      · exact absurd (by rw [h]; exact hmem) hns
      · exact List.mem_cons_of_mem _ (ih seen y hy h)
    · rename_i hmem
      rcases List.mem_cons.mp hy with h | h
      · subst h
        exact List.mem_cons_self _ _
      · have hns := dedupAux_not_seen key (key a :: seen) (v' ++ b) y h
        have hne : key y ≠ key a := fun hc => hns (by simp [hc])
        rw [List.map_cons] at hk
        rcases List.mem_cons.mp hk with hh | hh
        · exact absurd hh hne
        · exact List.mem_cons_of_mem _ (ih (key a :: seen) y h hh)

/-- C7 counterexample: on the glyph list of the claim, the first two
glyphs are NOT collapsed into one: Python round(11/2) is 6 by banker's
rounding, so the quantised keys (10,10) and (12,12) differ although the
positions are within distance 2.  All three glyphs survive the positional
dedup, the assembled line is three identical Hebrew characters, and the
text-level pass collapses that run, so the extracted line text is one
single character, not the two characters the claim requires. -/
theorem c7_glyph_dedup_counterexample :
    extract_text_from_chars
        [⟨['ה'], 10, 10⟩, ⟨['ה'], 11, 11⟩, ⟨['ה'], 200, 10⟩] = ['ה']
    ∧ (dedupByKey posKey
        [⟨['ה'], 10, 10⟩, ⟨['ה'], 11, 11⟩, ⟨['ה'], 200, 10⟩]).length = 3
    ∧ (['ה'] : List Char) ≠ ['ה', 'ה'] := by
  decide

/-- C7 amended: before line assembly two glyphs are collapsed exactly when
their quantised positions (round(p/2)*2 under banker's rounding) and
literal text coincide — a bucket test, not a distance-2 test; the survivor
set keeps the first occurrence of each key, drops only repeated keys, and
covers every key.  On the claim's glyph list no pair shares a key, so no
positional collapse happens; the assembled line is a three-character
Hebrew run which the text-level pass collapses, and the extracted line
text is a single character. -/
theorem c7_glyph_dedup_amended :
    (∀ gs : List Glyph, List.Sublist (dedupByKey posKey gs) gs)
    ∧ (∀ gs : List Glyph,
        List.Pairwise (fun a b => posKey a ≠ posKey b) (dedupByKey posKey gs))
    ∧ (∀ gs : List Glyph, ∀ g ∈ gs,
        ∃ g' ∈ dedupByKey posKey gs, posKey g' = posKey g)
    ∧ extract_text_from_chars
        [⟨['ה'], 10, 10⟩, ⟨['ה'], 11, 11⟩, ⟨['ה'], 200, 10⟩] = ['ה'] := by
  refine ⟨fun gs => dedupAux_sublist posKey [] gs,
    fun gs => dedupAux_pairwise posKey [] gs, fun gs g hg => ?_, by decide⟩
  rcases dedupAux_covers posKey [] gs g hg with h | h
  · simp at h
  · exact h

/-- Witness for c7_glyph_dedup_amended at a concrete glyph list. -/
theorem c7_glyph_dedup_amended_witness :
    ∃ g' ∈ dedupByKey posKey [⟨['ה'], 10, 10⟩, ⟨['ה'], 11, 11⟩],
      posKey g' = posKey (⟨['ה'], 11, 11⟩ : Glyph) :=
  c7_glyph_dedup_amended.2.2.1
    [⟨['ה'], 10, 10⟩, ⟨['ה'], 11, 11⟩] ⟨['ה'], 11, 11⟩ (by decide)

theorem insDesc_perm (key : α → Int) (x : α) (l : List α) :
    List.Perm (insDesc key x l) (x :: l) := by
  induction l with
  | nil => simp [insDesc]
  | cons y ys ih =>
    simp only [insDesc]
    split
    · exact ((ih.cons y).trans (List.Perm.swap x y ys))
    · exact List.Perm.refl _

theorem sortDescBy_perm (key : α → Int) (l : List α) :
    List.Perm (sortDescBy key l) l := by
  induction l with
  | nil => simp [sortDescBy]
  | cons x xs ih =>
    exact (insDesc_perm key x (sortDescBy key xs)).trans (ih.cons x)

/-- C4: for every query and collaborator response, search returns at most
k chunks and never two results with identical text; the candidate list is
the vector-then-lexical concatenation deduplicated by exact chunk-text
equality keeping the first occurrence, so on a text tie the vector-sourced
chunk is the one kept. -/
theorem c4_search_merge_dedup :
    (∀ (vres bres : List RDoc) (query : List Char) (k : Nat)
        (useRerank : Bool) (ro : RerankOutcome),
      (searchVD vres bres query k useRerank ro).length ≤ k)
    ∧ (∀ (vres bres : List RDoc) (query : List Char) (k : Nat)
        (useRerank : Bool) (ro : RerankOutcome),
      List.Pairwise (fun a b : RDoc => a.text ≠ b.text)
        (searchVD vres bres query k useRerank ro))
    ∧ (∀ vres bres : List RDoc,
        List.Sublist (dedupByKey RDoc.text (vres ++ bres)) (vres ++ bres))
    ∧ (∀ vres bres : List RDoc,
        List.Pairwise (fun a b : RDoc => a.text ≠ b.text)
          (dedupByKey RDoc.text (vres ++ bres)))
    ∧ (∀ vres bres : List RDoc, ∀ d ∈ vres ++ bres,
        ∃ c ∈ dedupByKey RDoc.text (vres ++ bres), c.text = d.text)
    ∧ (∀ vres bres : List RDoc, ∀ c ∈ dedupByKey RDoc.text (vres ++ bres),
        c.text ∈ vres.map RDoc.text → c ∈ vres) := by
  have hsym : Symmetric (fun a b : RDoc => a.text ≠ b.text) :=
    fun a b h => fun e => h e.symm
  refine ⟨?_, ?_, ?_, ?_, ?_, ?_⟩
  · intro v b q k u ro
    have ht : ∀ l : List RDoc, (l.take k).length ≤ k := fun l => by
      simp [List.length_take]
    simp only [searchVD]
    split
    · cases ro with
      | ok score => exact ht _
      | fail => exact ht _
    · exact ht _
  · intro v b q k u ro
    have hp : List.Pairwise (fun a b : RDoc => a.text ≠ b.text)
        (dedupByKey RDoc.text (v ++ b)) :=
      dedupAux_pairwise RDoc.text [] (v ++ b)
    have htake : ∀ l : List RDoc,
        List.Pairwise (fun a b : RDoc => a.text ≠ b.text) l →
        List.Pairwise (fun a b : RDoc => a.text ≠ b.text) (l.take k) :=
      fun l h => List.Pairwise.sublist (List.take_sublist k l) h
    simp only [searchVD]
    split
    · cases ro with
      | ok score =>
          exact htake _
            (((sortDescBy_perm (fun d : RDoc => score q d.text) _).pairwise_iff
              (fun hxy e => hxy e.symm)).mpr hp)
      | fail => exact htake _ hp
    · exact htake _ hp
  · intro v b
    exact dedupAux_sublist RDoc.text [] (v ++ b)
  · intro v b
    exact dedupAux_pairwise RDoc.text [] (v ++ b)
  · intro v b d hd
    rcases dedupAux_covers RDoc.text [] (v ++ b) d hd with h | h
    · simp at h
    · exact h
  · intro v b c hc hm
    exact dedupAux_first_of_append RDoc.text [] v b c hc hm

/-- Witness for c4_search_merge_dedup: the vector copy of a tied text is
the one kept by the merge. -/
theorem c4_search_merge_dedup_witness :
    (⟨['a'], 0⟩ : RDoc) ∈ ([⟨['a'], 0⟩] : List RDoc) :=
  c4_search_merge_dedup.2.2.2.2.2 [⟨['a'], 0⟩] [⟨['a'], 1⟩]
    ⟨['a'], 0⟩ (by decide) (by decide)

/-- C5: with reranking requested, a reranker failure makes search return
exactly the first k candidates of the deduplicated vector+lexical merge;
the failure is absorbed (the embedded search is a total function whose
failure branch is this fallback), so no exception reaches the caller. -/
theorem c5_rerank_degradation :
    ∀ (vres bres : List RDoc) (query : List Char) (k : Nat),
      searchVD vres bres query k true RerankOutcome.fail =
        (dedupByKey RDoc.text (vres ++ bres)).take k := by
  intro v b q k
  simp only [searchVD]
  split
  · rfl
  · rfl

/-- C6 counterexample: search performs no empty-query check — the query
string is passed to the collaborators and their candidates are returned.
With an empty query and a vector collaborator that returns one chunk for
it, search returns that chunk, not the empty list. -/
theorem c6_empty_inputs_counterexample :
    searchVD [⟨['x'], 0⟩] [] [] 1 false RerankOutcome.fail = [⟨['x'], 0⟩]
    ∧ ([⟨['x'], 0⟩] : List RDoc) ≠ ([] : List RDoc) := by
  decide

/-- C6 amended: over an empty corpus both retrievers produce no
candidates and search returns the empty list without raising, for every
query (in particular the empty query), every k and every reranker state.
For an empty query over a non-empty corpus search has no special
handling: it returns whatever the collaborators return, merged and
truncated to k. -/
theorem c6_empty_corpus_amended :
    ∀ (query : List Char) (k : Nat) (useRerank : Bool) (ro : RerankOutcome),
      searchVD [] [] query k useRerank ro = [] := by
  intro q k u ro
  simp [searchVD, dedupByKey, dedupAux]

theorem tableLoop_structure (count : List Char → Nat) (maxTokens : Nat)
    (header : List Char) (headerTokens : Nat) (rest : List (List Char)) :
    ∀ cur : List (List Char),
      (cur = [] ∨ headerTokens + (cur.map count).sum ≤ maxTokens ∨ ∃ r, cur = [r]) →
      ∃ rowss : List (List (List Char)),
        tableLoop count maxTokens header headerTokens rest cur
            (headerTokens + (cur.map count).sum) =
          rowss.map (fun rs => header ++ nlc :: joinNL rs)
        ∧ rowss.flatten = cur ++ rest
        ∧ (∀ rs ∈ rowss, rs ≠ [])
        ∧ (∀ rs ∈ rowss,
            headerTokens + (rs.map count).sum ≤ maxTokens ∨ ∃ r, rs = [r]) := by
  induction rest with
  | nil =>
    intro cur hcur
    by_cases hc : cur = []
    · refine ⟨[], ?_, ?_, ?_, ?_⟩ <;> simp [tableLoop, hc]
    · refine ⟨[cur], ?_, ?_, ?_, ?_⟩
      · simp [tableLoop, hc]
      · simp
      · simp [hc]
      · intro rs hrs
        simp at hrs
        subst hrs
        rcases hcur with h | h | h
        · exact absurd h hc
        · exact Or.inl h
        · exact Or.inr h
  | cons row rtail ih =>
    intro cur hcur
    simp only [tableLoop]
    by_cases hcond :
        maxTokens < headerTokens + (cur.map count).sum + count row ∧ cur ≠ []
    · rw [if_pos hcond]
      obtain ⟨rowss, he, hf, hne, hp⟩ :=
        ih [row] (Or.inr (Or.inr ⟨row, rfl⟩))
      have he' :
          tableLoop count maxTokens header headerTokens rtail [row]
              (headerTokens + count row) =
            rowss.map (fun rs => header ++ nlc :: joinNL rs) := by
        simpa using he
      refine ⟨cur :: rowss, ?_, ?_, ?_, ?_⟩
      · simp only [List.map_cons]
        rw [he']
      · simp only [List.flatten_cons]
        rw [hf]
        simp
      · intro rs hrs
        rcases List.mem_cons.mp hrs with h | h
        · subst h
          exact hcond.2
        · exact hne rs h
      · intro rs hrs
        rcases List.mem_cons.mp hrs with h | h
        · subst h
          rcases hcur with h | h | h
          · exact absurd h hcond.2
          · exact Or.inl h
          · exact Or.inr h
        · exact hp rs h
    · rw [if_neg hcond]
      have harg : headerTokens + (cur.map count).sum + count row
          = headerTokens + ((cur ++ [row]).map count).sum := by
        simp only [List.map_append, List.map_cons, List.map_nil,
          List.sum_append, List.sum_cons, List.sum_nil]
        omega
      have hcur' : cur ++ [row] = [] ∨
          headerTokens + ((cur ++ [row]).map count).sum ≤ maxTokens ∨
          ∃ r, cur ++ [row] = [r] := by
        by_cases hc : cur = []
        · subst hc
          exact Or.inr (Or.inr ⟨row, by simp⟩)
        · have hle : ¬ maxTokens < headerTokens + (cur.map count).sum + count row :=
            fun hlt => hcond ⟨hlt, hc⟩
          right
          left
          rw [← harg]
          omega
      obtain ⟨rowss, he, hf, hne, hp⟩ := ih (cur ++ [row]) hcur'
      refine ⟨rowss, ?_, ?_, hne, hp⟩
      · rw [harg]
        exact he
      · rw [hf]
        simp

/-- C3: a table whose total token count fits the budget is returned as a
single unchanged chunk; on the row-splitting path (at least two lines,
data rows present, total above the budget, header below the budget) the
chunks are exactly a partition of the data rows in order, each chunk being
the header+delimiter lines followed by its verbatim rows (no row is split,
rows are accumulated until the next would exceed the additively tracked
budget, so each chunk's rows fit the budget unless a single row alone
exceeds it); and the claim's concrete table under a one-row budget (header
and one row fit, header and two rows do not) yields exactly two chunks,
each beginning with the header and delimiter rows. -/
theorem c3_table_chunking :
    (∀ (count : List Char → Nat) (trunc : List Char → Nat → List Char)
        (table : List Char) (maxT : Nat),
      count table ≤ maxT → chunk_table count trunc table maxT = [table])
    ∧ (∀ (count : List Char → Nat) (trunc : List Char → Nat → List Char)
        (table : List Char) (maxT : Nat),
      2 ≤ (splitNL table).length → (splitNL table).drop 2 ≠ [] →
      maxT < count table → count (joinNL ((splitNL table).take 2)) < maxT →
      ∃ rowss : List (List (List Char)),
        chunk_table count trunc table maxT =
          rowss.map (fun rs => joinNL ((splitNL table).take 2) ++ nlc :: joinNL rs)
        ∧ rowss.flatten = (splitNL table).drop 2
        ∧ (∀ rs ∈ rowss, rs ≠ [])
        ∧ (∀ rs ∈ rowss,
            count (joinNL ((splitNL table).take 2)) + (rs.map count).sum ≤ maxT
            ∨ ∃ r, rs = [r]))
    ∧ (table_to_markdown [[some "A".data, some "B".data],
          [some "1".data, some "2".data], [some "3".data, some "4".data]]
        = ("| A | B |\n| --- | --- |\n| 1 | 2 |\n| 3 | 4 |").data
      ∧ chunk_table List.length (fun s n => s.take n)
          (("| A | B |\n| --- | --- |\n| 1 | 2 |\n| 3 | 4 |").data) 35
        = [("| A | B |\n| --- | --- |\n| 1 | 2 |").data,
           ("| A | B |\n| --- | --- |\n| 3 | 4 |").data]
      ∧ leadsWith (("| A | B |\n| --- | --- |").data)
          (("| A | B |\n| --- | --- |\n| 1 | 2 |").data) = true
      ∧ leadsWith (("| A | B |\n| --- | --- |").data)
          (("| A | B |\n| --- | --- |\n| 3 | 4 |").data) = true) := by
  refine ⟨?_, ?_, by decide, by decide, by decide, by decide⟩
  · intro count trunc table maxT h
    by_cases h1 : (splitNL table).length < 2
    · simp [chunk_table, h1]
    · by_cases h2 : (splitNL table).drop 2 = []
      · simp [chunk_table, h1, h2]
      · simp [chunk_table, h1, h2, h]
  · intro count trunc table maxT h1 h2 h3 h4
    obtain ⟨rowss, he, hf, hne, hp⟩ :=
      tableLoop_structure count maxT (joinNL ((splitNL table).take 2))
        (count (joinNL ((splitNL table).take 2)))
        ((splitNL table).drop 2) [] (Or.inl rfl)
    have he' :
        tableLoop count maxT (joinNL ((splitNL table).take 2))
            (count (joinNL ((splitNL table).take 2)))
            ((splitNL table).drop 2) []
            (count (joinNL ((splitNL table).take 2))) =
          rowss.map
            (fun rs => joinNL ((splitNL table).take 2) ++ nlc :: joinNL rs) := by
      simpa using he
    have hross_ne : rowss ≠ [] := by
      intro hr
      subst hr
      simp only [List.flatten_nil, List.nil_append] at hf
      exact h2 hf.symm
    refine ⟨rowss, ?_, by simpa using hf, hne, hp⟩
    have hn1 : ¬ (splitNL table).length < 2 := by omega
    have hn3 : ¬ count table ≤ maxT := by omega
    have hn4 : ¬ maxT ≤ count (joinNL ((splitNL table).take 2)) := by omega
    simp only [chunk_table, if_neg hn1, if_neg hn3, if_neg hn4, if_neg h2]
    rw [he']
    rw [if_neg (by
      intro hmap
      exact hross_ne (List.map_eq_nil_iff.mp hmap))]

/-- Witness for c3_table_chunking: the unchanged-table branch and the
row-splitting branch at concrete inputs with a character-count stand-in
for the tokenizer. -/
theorem c3_table_chunking_witness :
    chunk_table List.length (fun s n => s.take n)
      (("| A | B |\n| --- | --- |\n| 1 | 2 |").data) 35
      = [("| A | B |\n| --- | --- |\n| 1 | 2 |").data]
    ∧ ∃ rowss : List (List (List Char)),
      chunk_table List.length (fun s n => s.take n)
          (("| A | B |\n| --- | --- |\n| 1 | 2 |\n| 3 | 4 |").data) 35 =
        rowss.map (fun rs =>
          joinNL ((splitNL (("| A | B |\n| --- | --- |\n| 1 | 2 |\n| 3 | 4 |").data)).take 2)
            ++ nlc :: joinNL rs)
      ∧ rowss.flatten =
          (splitNL (("| A | B |\n| --- | --- |\n| 1 | 2 |\n| 3 | 4 |").data)).drop 2
      ∧ (∀ rs ∈ rowss, rs ≠ [])
      ∧ (∀ rs ∈ rowss,
          List.length (joinNL
            ((splitNL (("| A | B |\n| --- | --- |\n| 1 | 2 |\n| 3 | 4 |").data)).take 2))
            + (rs.map List.length).sum ≤ 35
          ∨ ∃ r, rs = [r]) :=
  ⟨c3_table_chunking.1 List.length (fun s n => s.take n) _ 35 (by decide),
   c3_table_chunking.2.1 List.length (fun s n => s.take n) _ 35
     (by decide) (by decide) (by decide) (by decide)⟩

/-- C10 counterexample: a two-line table (header and delimiter only, no
data rows) with total token count above the budget and header token count
at least the budget is returned unchanged by _chunk_table — the no-data
branch fires before the truncation branch — whereas the claim requires
the truncation.  Instantiated with character count and prefix truncation
standing in for the external tokenizer. -/
theorem c10_oversized_header_counterexample :
    2 ≤ (splitNL ("ab\ncd".data)).length
    ∧ 3 < List.length ("ab\ncd".data)
    ∧ 3 ≤ List.length (joinNL ((splitNL ("ab\ncd".data)).take 2))
    ∧ chunk_table List.length (fun s n => s.take n) ("ab\ncd".data) 3
        = ["ab\ncd".data]
    ∧ ["ab\ncd".data] ≠ [("ab\ncd".data).take 3] := by
  decide

/-- C10 amended: for a table with at least two lines, at least one data
row, total token count above the budget and header token count at least
the budget, _chunk_table returns exactly one chunk: the whole table
truncated to the token budget; the header-in-every-sub-chunk and
no-row-split guarantees do not apply and content beyond the budget is
dropped. -/
theorem c10_oversized_header_amended :
    ∀ (count : List Char → Nat) (trunc : List Char → Nat → List Char)
      (table : List Char) (maxT : Nat),
      2 ≤ (splitNL table).length → (splitNL table).drop 2 ≠ [] →
      maxT < count table → maxT ≤ count (joinNL ((splitNL table).take 2)) →
      chunk_table count trunc table maxT = [trunc table maxT] := by
  intro count trunc table maxT h1 h2 h3 h4
  have hn1 : ¬ (splitNL table).length < 2 := by omega
  have hn3 : ¬ count table ≤ maxT := by omega
  simp only [chunk_table, if_neg hn1, if_neg h2, if_neg hn3, if_pos h4]

/-- Witness for c10_oversized_header_amended at a concrete three-line
table whose header alone reaches the budget. -/
theorem c10_oversized_header_amended_witness :
    chunk_table List.length (fun s n => s.take n) ("ab\ncd\nef".data) 4
      = [("ab\ncd\nef".data).take 4] :=
  c10_oversized_header_amended List.length (fun s n => s.take n)
    ("ab\ncd\nef".data) 4 (by decide) (by decide) (by decide) (by decide)

theorem extractAux_no_pipe (fuel : Nat) :
    ∀ (lines : List (List Char)) (pos tidx : Nat),
      (∀ l ∈ lines, pipeStart l = false) →
      extractAux fuel lines pos tidx = (lines, [], []) := by
  induction fuel with
  | zero =>
    intro lines pos tidx _
    rfl
  | succ fuel ih =>
    intro lines pos tidx h
    cases lines with
    | nil => rfl
    | cons l rest =>
      have hl : pipeStart l = false := h l (by simp)
      simp only [extractAux, hl, Bool.false_and, Bool.false_eq_true, if_false]
      rw [ih rest (pos + l.length + 1) tidx (fun x hx => h x (by simp [hx]))]

/-- C9 counterexample: in the text built from the two lines space-pipe-a
and space-pipe-dash-pipe no raw line begins with the delimiter character,
yet the source strips each line before testing, detects a table, and
returns a placeholder with a non-empty table list instead of the input
unchanged. -/
theorem c9_table_extraction_counterexample :
    (∀ l ∈ splitNL ((" |a\n |-|").data), leadsWith ['|'] l = false)
    ∧ extract_tables ((" |a\n |-|").data)
        = (("__TABLE_0__").data, [(" |a\n |-|").data], [0])
    ∧ extract_tables ((" |a\n |-|").data) ≠ ((" |a\n |-|").data, [], []) := by
  decide

/-- C9 amended: table extraction is the identity with empty table and
position lists on every text none of whose lines has a
whitespace-stripped form beginning with the delimiter character. -/
theorem c9_table_extraction_amended :
    ∀ text : List Char,
      (∀ l ∈ splitNL text, pipeStart l = false) →
      extract_tables text = (text, [], []) := by
  intro text h
  simp only [extract_tables]
  rw [extractAux_no_pipe (splitNL text).length (splitNL text) 0 0 h]
  simp [joinNL_splitNL]

/-- Witness for c9_table_extraction_amended on a concrete two-line text
with no delimiter-prefixed line. -/
theorem c9_table_extraction_amended_witness :
    extract_tables (("hello\nworld").data) = (("hello\nworld").data, [], []) :=
  c9_table_extraction_amended (("hello\nworld").data) (by decide)

theorem dropWhile_of_head (p : Char → Bool) (l : List Char)
    (h : ∀ a, l.head? = some a → p a = false) : l.dropWhile p = l := by
  cases l with
  | nil => rfl
  | cons a t =>
    have := h a rfl
    simp [List.dropWhile_cons, this]

theorem assembledRaw_append (a b : List PageRec) :
    assembledRaw (a ++ b) = assembledRaw a ++ assembledRaw b := by
  simp [assembledRaw]

theorem assembledRaw_length (ps : List PageRec) :
    (assembledRaw ps).length = totalLen ps := by
  induction ps with
  | nil => simp [assembledRaw, totalLen]
  | cons p ps ih =>
    simp only [assembledRaw, List.map_cons, List.flatten_cons,
      List.length_append, totalLen, List.sum_cons] at ih ⊢
    simp [ih]

theorem totalLen_append (a b : List PageRec) :
    totalLen (a ++ b) = totalLen a + totalLen b := by
  simp [totalLen]

theorem buildRanges_chain (ps : List PageRec) (pos : Nat) :
    List.Chain' (fun a b : PageRange => a.stop + 2 = b.start)
      (buildRanges ps pos) := by
  induction ps generalizing pos with
  | nil => simp [buildRanges]
  | cons p ps ih =>
    cases ps with
    | nil => simp [buildRanges]
    | cons q qs =>
      exact List.chain'_cons.mpr ⟨rfl, ih (pos + p.content.length + 2)⟩

theorem buildRanges_start_lb (ps : List PageRec) (pos : Nat) :
    ∀ r ∈ buildRanges ps pos, pos ≤ r.start := by
  induction ps generalizing pos with
  | nil => simp [buildRanges]
  | cons p ps ih =>
    intro r hr
    rcases List.mem_cons.mp hr with h | h
    · subst h
      exact Nat.le_refl pos
    · have := ih (pos + p.content.length + 2) r h
      omega

theorem buildRanges_pairwise (ps : List PageRec) (pos : Nat) :
    List.Pairwise (fun a b : PageRange => a.stop + 2 ≤ b.start)
      (buildRanges ps pos) := by
  induction ps generalizing pos with
  | nil => simp [buildRanges]
  | cons p ps ih =>
    refine List.Pairwise.cons ?_ (ih (pos + p.content.length + 2))
    intro r hr
    have := buildRanges_start_lb ps (pos + p.content.length + 2) r hr
    simp only
    omega

theorem buildRanges_getLast_stop (ps : List PageRec) (pos : Nat) (h : ps ≠ []) :
    (buildRanges ps pos).getLast?.map PageRange.stop
      = some (pos + totalLen ps - 2) := by
  induction ps generalizing pos with
  | nil => exact absurd rfl h
  | cons p ps ih =>
    cases ps with
    | nil =>
      simp [buildRanges, totalLen]
      omega
    | cons q qs =>
      have hne : (q :: qs : List PageRec) ≠ [] := by simp
      have step := ih (pos + p.content.length + 2) hne
      simp only [buildRanges] at step ⊢
      rw [List.getLast?_cons_cons]
      rw [step]
      congr 1
      have h2 : 2 ≤ totalLen (q :: qs) := by
        simp [totalLen]
        omega
      simp only [totalLen, List.sum_cons, List.map_cons] at h2 ⊢
      omega

theorem buildRanges_cover (ps : List PageRec) :
    ∀ (pos o : Nat), pos ≤ o → o < pos + totalLen ps →
      (∃ r ∈ buildRanges ps pos, r.start ≤ o ∧ o < r.stop)
      ∨ (∃ r ∈ buildRanges ps pos, r.stop ≤ o ∧ o < r.stop + 2) := by
  induction ps with
  | nil =>
    intro pos o h1 h2
    simp [totalLen] at h2
    omega
  | cons p ps ih =>
    intro pos o h1 h2
    by_cases hc1 : o < pos + p.content.length
    · exact Or.inl ⟨⟨p.page, pos, pos + p.content.length⟩, by simp [buildRanges],
        h1, hc1⟩
    · by_cases hc2 : o < pos + p.content.length + 2
      · refine Or.inr ⟨⟨p.page, pos, pos + p.content.length⟩,
          by simp [buildRanges], ?_, ?_⟩
        · simp only
          omega
        · simp only
          omega
      · have h1' : pos + p.content.length + 2 ≤ o := by omega
        have h2' : o < (pos + p.content.length + 2) + totalLen ps := by
          simp only [totalLen, List.map_cons, List.sum_cons] at h2 ⊢
          omega
        rcases ih (pos + p.content.length + 2) o h1' h2' with ⟨r, hr, ha, hb⟩ | ⟨r, hr, ha, hb⟩
        · exact Or.inl ⟨r, List.mem_cons_of_mem _ hr, ha, hb⟩
        · exact Or.inr ⟨r, List.mem_cons_of_mem _ hr, ha, hb⟩

theorem assembleText_eq_front (ps : List PageRec)
    (hh : ∃ p c, ps.head? = some p ∧ p.content.head? = some c ∧ isSpaceC c = false)
    (hl : ∃ p c, ps.getLast? = some p ∧ p.content.getLast? = some c ∧
      isSpaceC c = false) :
    ∃ pl, ps.getLast? = some pl
      ∧ assembleText ps = assembledRaw ps.dropLast ++ pl.content := by
  obtain ⟨p0, c0, hp0, hc0, hs0⟩ := hh
  obtain ⟨pl, cl, hpl, hcl, hsl⟩ := hl
  have hne : ps ≠ [] := by
    intro h
    subst h
    simp at hp0
  have hraw_head : (assembledRaw ps).head? = some c0 := by
    cases ps with
    | nil => simp at hp0
    | cons q qs =>
      have hq : q = p0 := by simpa using hp0
      subst hq
      cases hcc : q.content with
      | nil =>
        rw [hcc] at hc0
        simp at hc0
      | cons a t =>
        rw [hcc] at hc0
        simp at hc0
        subst hc0
        simp [assembledRaw, hcc]
  have hdrop1 : (assembledRaw ps).dropWhile isSpaceC = assembledRaw ps := by
    apply dropWhile_of_head
    intro a ha
    rw [hraw_head] at ha
    have hac : a = c0 := by
      injection ha with h
      exact h.symm
    rw [hac]
    exact hs0
  have hgl : ps.getLast hne = pl := by
    have := List.getLast?_eq_getLast ps hne
    rw [hpl] at this
    injection this with hinj
    exact hinj.symm
  have hdecomp : ps.dropLast ++ [pl] = ps := by
    rw [← hgl]
    exact List.dropLast_append_getLast hne
  obtain ⟨init, hinit⟩ : ∃ init, pl.content = init ++ [cl] := by
    cases hrc : pl.content.reverse with
    | nil =>
      have : pl.content = [] := by
        have := congrArg List.reverse hrc
        simpa using this
      rw [this] at hcl
      simp at hcl
    | cons a t =>
      have ha : a = cl := by
        have hhr := List.head?_reverse pl.content
        rw [hrc] at hhr
        rw [hcl] at hhr
        simpa using hhr
      subst ha
      refine ⟨t.reverse, ?_⟩
      have := congrArg List.reverse hrc
      simpa using this
  have hraw : assembledRaw ps
      = (assembledRaw ps.dropLast ++ pl.content) ++ [nlc, nlc] := by
    conv_lhs => rw [← hdecomp]
    rw [assembledRaw_append]
    simp [assembledRaw]
  refine ⟨pl, hpl, ?_⟩
  unfold assembleText pyStrip
  rw [hdrop1, hraw]
  have hnl : isSpaceC nlc = true := rfl
  have hrev : ((assembledRaw ps.dropLast ++ pl.content) ++ [nlc, nlc]).reverse
      = nlc :: nlc :: (cl :: ((assembledRaw ps.dropLast ++ init).reverse)) := by
    rw [hinit]
    rw [show assembledRaw ps.dropLast ++ (init ++ [cl])
        = (assembledRaw ps.dropLast ++ init) ++ [cl] by simp [List.append_assoc]]
    simp [List.reverse_append]
  rw [hrev]
  rw [List.dropWhile_cons]
  rw [hnl]
  simp only [if_true]
  rw [List.dropWhile_cons]
  rw [hnl]
  simp only [if_true]
  rw [List.dropWhile_cons]
  rw [hsl]
  simp only [Bool.false_eq_true, if_false]
  rw [hinit]
  simp [List.append_assoc]

theorem assembleText_length (ps : List PageRec)
    (hh : ∃ p c, ps.head? = some p ∧ p.content.head? = some c ∧ isSpaceC c = false)
    (hl : ∃ p c, ps.getLast? = some p ∧ p.content.getLast? = some c ∧
      isSpaceC c = false) :
    (assembleText ps).length = totalLen ps - 2 := by
  obtain ⟨pl, hpl, heq⟩ := assembleText_eq_front ps hh hl
  have hne : ps ≠ [] := by
    intro h
    subst h
    simp at hpl
  have hgl : ps.getLast hne = pl := by
    have := List.getLast?_eq_getLast ps hne
    rw [hpl] at this
    injection this with hinj
    exact hinj.symm
  have hdecomp : ps.dropLast ++ [pl] = ps := by
    rw [← hgl]
    exact List.dropLast_append_getLast hne
  have htot : totalLen ps = totalLen ps.dropLast + (pl.content.length + 2) := by
    conv_lhs => rw [← hdecomp]
    rw [totalLen_append]
    simp [totalLen]
  rw [heq]
  rw [List.length_append, assembledRaw_length]
  omega

/-- C1 counterexample: for the two pages with contents a and b the
assembled text is a, two newlines, b (length 4) while the recorded ranges
are [0,1) and [3,4): the end offset of page 1 is 1, not the start offset
3 of page 2 (the two-character separator is excluded from both ranges),
and offset 1 of the assembled text is covered by no range, so the ranges
do not tile the text. -/
theorem c1_page_ranges_counterexample :
    buildRanges [⟨1, ['a']⟩, ⟨2, ['b']⟩] 0 = [⟨1, 0, 1⟩, ⟨2, 3, 4⟩]
    ∧ assembleText [⟨1, ['a']⟩, ⟨2, ['b']⟩] = ("a\n\nb").data
    ∧ (⟨1, 0, 1⟩ : PageRange).stop ≠ (⟨2, 3, 4⟩ : PageRange).start
    ∧ 1 < (assembleText [⟨1, ['a']⟩, ⟨2, ['b']⟩]).length
    ∧ ∀ r ∈ buildRanges [⟨1, ['a']⟩, ⟨2, ['b']⟩] 0,
        ¬ (r.start ≤ 1 ∧ 1 < r.stop) := by
  decide

/-- C1 amended: for pages whose first content does not begin with
whitespace and whose last content does not end with whitespace, the
ranges built by process_file start at offset 0, satisfy stop of page n
plus 2 equals start of page n+1 (the separator lies between the ranges),
are pairwise disjoint, end exactly at the length of the stripped full
text, and every offset of the full text lies either inside a page range
or inside the two-character separator gap after some page range. -/
theorem c1_page_ranges_amended (ps : List PageRec)
    (hh : ∃ p c, ps.head? = some p ∧ p.content.head? = some c ∧ isSpaceC c = false)
    (hl : ∃ p c, ps.getLast? = some p ∧ p.content.getLast? = some c ∧
      isSpaceC c = false) :
    List.Chain' (fun a b : PageRange => a.stop + 2 = b.start) (buildRanges ps 0)
    ∧ List.Pairwise (fun a b : PageRange => a.stop + 2 ≤ b.start) (buildRanges ps 0)
    ∧ (buildRanges ps 0).head?.map PageRange.start = some 0
    ∧ (buildRanges ps 0).getLast?.map PageRange.stop
        = some (assembleText ps).length
    ∧ (∀ o, o < (assembleText ps).length →
        (∃ r ∈ buildRanges ps 0, r.start ≤ o ∧ o < r.stop)
        ∨ (∃ r ∈ buildRanges ps 0, r.stop ≤ o ∧ o < r.stop + 2)) := by
  have hne : ps ≠ [] := by
    intro h
    subst h
    obtain ⟨p, c, hp, _, _⟩ := hh
    simp at hp
  have hlen := assembleText_length ps hh hl
  have htot2 : 2 ≤ totalLen ps := by
    cases ps with
    | nil => exact absurd rfl hne
    | cons q qs =>
      simp only [totalLen, List.map_cons, List.sum_cons]
      omega
  refine ⟨buildRanges_chain ps 0, buildRanges_pairwise ps 0, ?_, ?_, ?_⟩
  · cases ps with
    | nil => exact absurd rfl hne
    | cons q qs => simp [buildRanges]
  · rw [buildRanges_getLast_stop ps 0 hne, hlen]
    simp
  · intro o ho
    rw [hlen] at ho
    exact buildRanges_cover ps 0 o (Nat.zero_le o) (by omega)

/-- Witness for c1_page_ranges_amended at a concrete two-page input. -/
theorem c1_page_ranges_amended_witness :
    List.Chain' (fun a b : PageRange => a.stop + 2 = b.start)
      (buildRanges [⟨1, ['a']⟩, ⟨2, ['b']⟩] 0) :=
  (c1_page_ranges_amended [⟨1, ['a']⟩, ⟨2, ['b']⟩]
    ⟨⟨1, ['a']⟩, 'a', rfl, rfl, by decide⟩
    ⟨⟨2, ['b']⟩, 'b', rfl, rfl, by decide⟩).1

theorem leadsWith_length (s : List Char) :
    ∀ t, leadsWith s t = true → s.length ≤ t.length := by
  induction s with
  | nil =>
    intro t _
    simp
  | cons p ps ih =>
    intro t h
    cases t with
    | nil => simp [leadsWith] at h
    | cons c cs =>
      simp only [leadsWith, Bool.and_eq_true] at h
      have := ih cs h.2
      simp only [List.length_cons]
      omega

theorem splitKeepF_piece_len (s : List Char) :
    ∀ (fuel : Nat) (acc t p : List Char), p ∈ splitKeepF s fuel acc t →
      p.length ≤ acc.length + t.length := by
  intro fuel
  induction fuel with
  | zero =>
    intro acc t p hp
    simp only [splitKeepF, List.mem_singleton] at hp
    subst hp
    simp
  | succ fuel ih =>
    intro acc t p hp
    cases t with
    | nil =>
      simp only [splitKeepF, List.mem_singleton] at hp
      subst hp
      simp
    | cons c rest =>
      simp only [splitKeepF] at hp
      split at hp
      · rename_i hlw
        rcases List.mem_cons.mp hp with h | h
        · subst h
          have hsl := leadsWith_length s (c :: rest) hlw
          simp only [List.length_append, List.length_reverse, List.length_cons] at hsl ⊢
          omega
        · have hrec := ih [] (rest.drop (s.length - 1)) p h
          have hd : (rest.drop (s.length - 1)).length ≤ rest.length := by
            simp [List.length_drop]
          simp only [List.length_nil, List.length_cons] at hrec ⊢
          omega
      · have hrec := ih (c :: acc) rest p hp
        simp only [List.length_cons] at hrec ⊢
        omega

theorem shrink_spec (count : List Char → Nat) (budget overlap : Nat)
    (next : List Char) :
    ∀ buf, shrink count budget overlap next buf = []
      ∨ count ((shrink count budget overlap next buf ++ [next]).flatten) ≤ budget := by
  intro buf
  induction buf with
  | nil =>
    left
    rfl
  | cons b bs ih =>
    simp only [shrink]
    split
    · exact ih
    · rename_i h
      push_neg at h
      right
      exact h.2

theorem mergeAux_budget (count : List Char → Nat) (budget overlap : Nat) :
    ∀ (ps buf : List (List Char)),
      (∀ p ∈ ps, count p ≤ budget) →
      (buf = [] ∨ count buf.flatten ≤ budget) →
      ∀ c ∈ mergeAux count budget overlap buf ps, count c ≤ budget := by
  intro ps
  induction ps with
  | nil =>
    intro buf hp hbuf c hc
    simp only [mergeAux] at hc
    split at hc
    · simp at hc
    · rename_i hbe
      simp only [List.mem_singleton] at hc
      subst hc
      rcases hbuf with h | h
      · subst h
        simp at hbe
      · exact h
  | cons p ps ih =>
    intro buf hp hbuf c hc
    simp only [mergeAux] at hc
    split at hc
    · rename_i hbe
      refine ih [p] (fun q hq => hp q (List.mem_cons_of_mem _ hq)) ?_ c hc
      right
      have hfl : List.flatten [p] = p := by simp
      rw [hfl]
      exact hp p (List.mem_cons_self _ _)
    · split at hc
      · rename_i hbe hfit
        exact ih (buf ++ [p])
          (fun q hq => hp q (List.mem_cons_of_mem _ hq)) (Or.inr hfit) c hc
      · rename_i hbe hnofit
        rcases List.mem_cons.mp hc with h | h
        · subst h
          rcases hbuf with hb | hb
          · subst hb
            simp at hbe
          · exact hb
        · refine ih (shrink count budget overlap p buf ++ [p])
            (fun q hq => hp q (List.mem_cons_of_mem _ hq)) ?_ c h
          right
          rcases shrink_spec count budget overlap p buf with hs | hs
          · rw [hs]
            have hfl : List.flatten ([] ++ [p] : List (List Char)) = p := by simp
            rw [hfl]
            exact hp p (List.mem_cons_self _ _)
          · exact hs

theorem gatherPieces_mem (count : List Char → Nat) (budget overlap : Nat)
    (f : List Char → List (List Char)) :
    ∀ (ps buf : List (List Char)),
      (∀ p ∈ buf, count p ≤ budget) →
      ∀ c ∈ gatherPieces count budget overlap f buf ps,
        count c ≤ budget ∨ ∃ p ∈ ps, budget < count p ∧ c ∈ f p := by
  intro ps
  induction ps with
  | nil =>
    intro buf hbuf c hc
    simp only [gatherPieces] at hc
    left
    exact mergeAux_budget count budget overlap buf [] hbuf (Or.inl rfl) c hc
  | cons p ps ih =>
    intro buf hbuf c hc
    simp only [gatherPieces] at hc
    split at hc
    · rename_i hfit
      have hbuf' : ∀ q ∈ buf ++ [p], count q ≤ budget := by
        intro q hq
        rcases List.mem_append.mp hq with h | h
        · exact hbuf q h
        · simp only [List.mem_singleton] at h
          subst h
          exact hfit
      rcases ih (buf ++ [p]) hbuf' c hc with h | ⟨q, hq, hlt, hcf⟩
      · exact Or.inl h
      · exact Or.inr ⟨q, List.mem_cons_of_mem _ hq, hlt, hcf⟩
    · rename_i hnofit
      rcases List.mem_append.mp hc with hc1 | hc2
      · rcases List.mem_append.mp hc1 with hm | hf
        · exact Or.inl
            (mergeAux_budget count budget overlap buf [] hbuf (Or.inl rfl) c hm)
        · exact Or.inr ⟨p, List.mem_cons_self _ _, by omega, hf⟩
      · rcases ih [] (by simp) c hc2 with h | ⟨q, hq, hlt, hcf⟩
        · exact Or.inl h
        · exact Or.inr ⟨q, List.mem_cons_of_mem _ hq, hlt, hcf⟩

theorem splitCascade_budget (count : List Char → Nat) (budget overlap : Nat) :
    ∀ (fuel : Nat) (seps : List (List Char)) (text : List Char),
      seps.length ≤ fuel → ([] ∈ seps ∨ text.length ≤ 1) →
      ∀ c ∈ splitCascade count budget overlap fuel seps text,
        count c ≤ budget ∨ c.length ≤ 1 := by
  intro fuel
  induction fuel with
  | zero =>
    intro seps text hf hs c hc
    cases seps with
    | nil =>
      simp only [splitCascade, List.mem_singleton] at hc
      subst hc
      rcases hs with h | h
      · simp at h
      · exact Or.inr h
    | cons s rest => simp at hf
  | succ fuel ih =>
    intro seps text hf hs c hc
    cases seps with
    | nil =>
      simp only [splitCascade, List.mem_singleton] at hc
      subst hc
      rcases hs with h | h
      · simp at h
      · exact Or.inr h
    | cons s rest =>
      have hf' : rest.length ≤ fuel := by
        simp only [List.length_cons] at hf
        omega
      simp only [splitCascade] at hc
      split at hc
      · rename_i hcond
        rcases gatherPieces_mem count budget overlap _ _ [] (by simp) c hc
          with h | ⟨p, hp, hlt, hcf⟩
        · exact Or.inl h
        · refine ih rest p hf' ?_ c hcf
          by_cases hse : s.isEmpty
          · right
            rw [if_pos hse] at hp
            simp only [List.mem_map] at hp
            obtain ⟨ch, _, rfl⟩ := hp
            simp
          · rw [if_neg hse] at hp
            rcases hs with hmem | hlen
            · left
              rcases List.mem_cons.mp hmem with h | h
              · exfalso
                rw [← h] at hse
                simp at hse
              · exact h
            · right
              have := splitKeepF_piece_len s text.length [] text p hp
              simp only [List.length_nil, Nat.zero_add] at this
              omega
      · rename_i hcond
        refine ih rest text hf' ?_ c hc
        rcases hs with hmem | hlen
        · left
          rcases List.mem_cons.mp hmem with h | h
          · exfalso
            rw [← h] at hcond
            simp at hcond
          · exact h
        · exact Or.inr hlen

/-- C2: every chunk produced by the token-aware splitter (modelled from
the spec over the separator cascade of create_text_splitter, with the
external tokenizer's count function as a parameter) has token count at
most the budget, except chunks that are a single atomic unit of the
cascade — with the empty-separator fallback in the cascade these are
single characters, which nothing can split further. -/
theorem c2_token_budget :
    ∀ (count : List Char → Nat) (budget overlap : Nat) (text : List Char),
      ∀ c ∈ splitTextSpec count budget overlap text,
        count c ≤ budget ∨ c.length ≤ 1 := by
  intro count budget overlap text c hc
  exact splitCascade_budget count budget overlap hebrewSeparators.length
    hebrewSeparators text (Nat.le_refl _) (Or.inl (by simp [hebrewSeparators]))
    c hc

/-- Witness for c2_token_budget on a concrete text with a character-count
stand-in for the tokenizer. -/
theorem c2_token_budget_witness :
    ("ab ").data ∈ splitTextSpec List.length 3 0 (("ab cd").data)
    ∧ (List.length (("ab ").data) ≤ 3 ∨ (("ab ").data).length ≤ 1) :=
  ⟨by decide,
   c2_token_budget List.length 3 0 (("ab cd").data) (("ab ").data) (by decide)⟩
